import Mathlib

/-!
Verification of the `kvs` log-structured key-value store.

The development shallowly embeds the core of the crate:

* `Log` and its serde_json wire form (src/kv.rs, serde_json tagged enum);
* `InMemoryMapCache` (src/cache.rs), the in-memory index, modelled with an
  association list in place of `HashMap` (lookup-equivalent; the list order
  determinizes the unspecified hash iteration order used by `get_all`);
* `FileStorage` (src/storage.rs): the log file is a list of lines (each line
  is the serialization of one record, without its trailing newline byte; the
  writer always terminates a record with one newline, and `encode` never
  produces a newline character, so line granularity is faithful).  The
  structure also carries the buffered reader's position and, after
  `override_storage`, the snapshot of the old file to which the reader file
  descriptor stays attached;
* `KvStore` (src/kv.rs) with `get`, `set`, `remove`, `compress_storage`,
  `cache_logs` and `_get_from_db`;
* the filesystem event trace of `override_storage` and a name-to-contents
  filesystem map, for the claims about the compacted-log swap and recovery.

Byte sizes use the UTF-8 size of characters, matching Rust's `String::len`.
-/

/-- Database operations, from `enum Log` in src/kv.rs. -/
inductive Log where
  | Set (key value : String)
  | Remove (key : String)
deriving DecidableEq, Repr

/-- The key named by a record (the discriminating field of both variants). -/
def logKey : Log → String
  | .Set k _ => k
  | .Remove k => k

/-- Whether a record is a `Set`. -/
def isSet : Log → Bool
  | .Set _ _ => true
  | .Remove _ => false

/-- Opening brace character (0x7B). -/
def lbrace : Char := '\x7b'

/-- Closing brace character (0x7D). -/
def rbrace : Char := '\x7d'

/-- Lower-case hexadecimal digit for a value below 16 (serde_json uses
lower-case hex in control-character escapes). -/
def hexDigit (n : Nat) : Char :=
  if n < 10 then Char.ofNat (48 + n) else Char.ofNat (87 + n)

/-- Numeric value of a hexadecimal digit character, if it is one. -/
def hexVal (c : Char) : Option Nat :=
  if 48 ≤ c.toNat ∧ c.toNat ≤ 57 then some (c.toNat - 48)
  else if 97 ≤ c.toNat ∧ c.toNat ≤ 102 then some (c.toNat - 87)
  else if 65 ≤ c.toNat ∧ c.toNat ≤ 70 then some (c.toNat - 55)
  else none

/-- JSON string escaping of one character, as performed by serde_json when
serializing a Rust `String`: quote and backslash are escaped, the common
control characters get their short escapes, all other control characters get
a `\u00XX` escape, and everything else is passed through. -/
def escapeChar (c : Char) : List Char :=
  if c = '"' then ['\\', '"']
  else if c = '\\' then ['\\', '\\']
  else if c = '\x08' then ['\\', 'b']
  else if c = '\t' then ['\\', 't']
  else if c = '\n' then ['\\', 'n']
  else if c = '\x0c' then ['\\', 'f']
  else if c = '\r' then ['\\', 'r']
  else if c.toNat < 32 then
    ['\\', 'u', '0', '0', hexDigit (c.toNat / 16), hexDigit (c.toNat % 16)]
  else [c]

/-- JSON string escaping of a character list. -/
def escList : List Char → List Char
  | [] => []
  | c :: cs => escapeChar c ++ escList cs

/-- Leading characters of the serialization of a `Set` record. -/
def setPre : List Char :=
  [lbrace, '"', 'S', 'e', 't', '"', ':', '[', '"']

/-- Leading characters of the serialization of a `Remove` record. -/
def remPre : List Char :=
  [lbrace, '"', 'R', 'e', 'm', 'o', 'v', 'e', '"', ':', '"']

/-- serde_json serialization of a record (`serde_json::to_string`), as a
character list: `Set k v` becomes the tagged object with a two-element array
and `Remove k` the tagged object with a plain string. -/
def encode : Log → List Char
  | .Set k v =>
      setPre ++ escList k.data ++ ['"', ',', '"'] ++ escList v.data ++
        ['"', ']', rbrace]
  | .Remove k => remPre ++ escList k.data ++ ['"', rbrace]

/-- UTF-8 byte size of a character list; Rust's `String::len`. -/
def bsize (cs : List Char) : Nat := (cs.map Char.utf8Size).sum

/-- Parse the body of a JSON string starting after the opening quote, up to
and including the closing quote; returns the unescaped content and the rest
of the input.  Models serde_json's string parsing on the forms it emits
(plus upper-case hex, which JSON also allows).  A raw control character or a
bad escape is a parse error. -/
def parseJsonString : List Char → Option (List Char × List Char)
  | [] => none
  | c :: rest =>
    if c = '"' then some ([], rest)
    else if c = '\\' then
      match rest with
      | [] => none
      | e :: rest2 =>
        if e = '"' then
          (parseJsonString rest2).map (fun p => ('"' :: p.1, p.2))
        else if e = '\\' then
          (parseJsonString rest2).map (fun p => ('\\' :: p.1, p.2))
        else if e = 'b' then
          (parseJsonString rest2).map (fun p => ('\x08' :: p.1, p.2))
        else if e = 't' then
          (parseJsonString rest2).map (fun p => ('\t' :: p.1, p.2))
        else if e = 'n' then
          (parseJsonString rest2).map (fun p => ('\n' :: p.1, p.2))
        else if e = 'f' then
          (parseJsonString rest2).map (fun p => ('\x0c' :: p.1, p.2))
        else if e = 'r' then
          (parseJsonString rest2).map (fun p => ('\r' :: p.1, p.2))
        else if e = 'u' then
          match rest2 with
          | h1 :: h2 :: h3 :: h4 :: rest3 =>
            match hexVal h1, hexVal h2, hexVal h3, hexVal h4 with
            | some a, some b, some x, some y =>
              let n := ((a * 16 + b) * 16 + x) * 16 + y
              if n < 0xd800 then
                (parseJsonString rest3).map
                  (fun p => (Char.ofNat n :: p.1, p.2))
              else none
            | _, _, _, _ => none
          | _ => none
        else none
    else if c.toNat < 32 then none
    else (parseJsonString rest).map (fun p => (c :: p.1, p.2))

/-- Strip an expected sequence of characters from the front of the input. -/
def stripPre : List Char → List Char → Option (List Char)
  | [], cs => some cs
  | _ :: _, [] => none
  | p :: ps, c :: cs => if c = p then stripPre ps cs else none

/-- serde_json deserialization of one record line
(`serde_json::from_str::<Log>`), restricted to the canonical form the
serializer produces: either tagged variant, with full JSON string unescaping,
and nothing but the record on the line. -/
def decode (cs : List Char) : Option Log :=
  match stripPre setPre cs with
  | some r =>
    match parseJsonString r with
    | some (k, r1) =>
      match stripPre [',', '"'] r1 with
      | some r2 =>
        match parseJsonString r2 with
        | some (v, r3) =>
          match stripPre [']', rbrace] r3 with
          | some [] => some (.Set (String.mk k) (String.mk v))
          | _ => none
        | none => none
      | none => none
    | none => none
  | none =>
    match stripPre remPre cs with
    | some r =>
      match parseJsonString r with
      | some (k, r1) =>
        match stripPre [rbrace] r1 with
        | some [] => some (.Remove (String.mk k))
        | _ => none
      | none => none
    | none => none

/-- An index entry: the record and the byte size it was observed with
(struct `SizedLog` in src/cache.rs). -/
structure SizedLog where
  log : Log
  size : Nat
deriving DecidableEq, Repr

/-- The in-memory index (`InMemoryMapCache` in src/cache.rs).  The `HashMap`
is modelled by an association list whose earliest entry for a key wins. -/
structure InMemoryMapCache where
  cache : List (String × SizedLog)
  uncompacted : Nat
deriving DecidableEq, Repr

/-- `HashMap::get`: first entry with the given key. -/
def lookupA : List (String × SizedLog) → String → Option SizedLog
  | [], _ => none
  | (k', v) :: rest, k => if k' = k then some v else lookupA rest k

/-- Removal of every entry with the given key (the effect of
`HashMap::remove` on lookups). -/
def eraseA (l : List (String × SizedLog)) (k : String) :
    List (String × SizedLog) :=
  l.filter (fun p => p.1 ≠ k)

namespace InMemoryMapCache

/-- `Cache::new`. -/
def new : InMemoryMapCache := ⟨[], 0⟩

/-- `InMemoryMapCache::insert` (src/cache.rs): a `Remove` counts its own
size as reclaimable, evicts any existing entry and counts that entry's size
too; a `Set` replaces any existing entry and counts the replaced entry's
size as reclaimable. -/
def insert (c : InMemoryMapCache) (log : Log) (size : Nat) :
    InMemoryMapCache :=
  match log with
  | .Remove k =>
    match lookupA c.cache k with
    | some l => ⟨eraseA c.cache k, c.uncompacted + size + l.size⟩
    | none => ⟨c.cache, c.uncompacted + size⟩
  | .Set k _ =>
    match lookupA c.cache k with
    | some item =>
      ⟨(k, ⟨log, size⟩) :: eraseA c.cache k, c.uncompacted + item.size⟩
    | none => ⟨(k, ⟨log, size⟩) :: eraseA c.cache k, c.uncompacted⟩

/-- `InMemoryMapCache::get`: the record stored for a key, if any. -/
def get (c : InMemoryMapCache) (key : String) : Option Log :=
  (lookupA c.cache key).map (fun sl => sl.log)

/-- `InMemoryMapCache::get_all`: the stored records, in map order. -/
def get_all (c : InMemoryMapCache) : List Log :=
  c.cache.map (fun p => p.2.log)

/-- `InMemoryMapCache::uncompacted_space`. -/
def uncompacted_space (c : InMemoryMapCache) : Nat := c.uncompacted

end InMemoryMapCache

/-- Fold a replayed `(record, size)` stream into the cache; this is the body
of the loop in `KvStore::cache_logs`. -/
def applyInserts (c : InMemoryMapCache) (items : List (Log × Nat)) :
    InMemoryMapCache :=
  items.foldl (fun c it => c.insert it.1 it.2) c

/-- The log file and its reader (`FileStorage` in src/storage.rs).
`lines` is the file currently at the store's path, one record
serialization per line (terminating newlines are implicit).  `readerLines`
is `none` while the buffered reader's file descriptor refers to that same
file; after `override_storage` the reader is left attached to the replaced
(pre-compaction) file, whose frozen contents are then carried here as
`some oldLines`.  `pos` is the reader's position, in lines. -/
structure FileStorage where
  lines : List (List Char)
  readerLines : Option (List (List Char))
  pos : Nat
deriving DecidableEq, Repr

namespace FileStorage

/-- The file contents visible to the reader. -/
def view (fs : FileStorage) : List (List Char) :=
  fs.readerLines.getD fs.lines

/-- `<FileStorage as Iterator>::next`: read one line.  At end of file the
cursor rewinds to the start and the iterator yields nothing.  A line that
decodes yields the record together with the number of bytes read by
`read_line` — the line's bytes plus its newline.  A line that fails to
decode has already been consumed by `read_line`; the `Err(_)` arm of
`serde_json::from_str` then yields `None` (no rewind, no error item). -/
def next (fs : FileStorage) : Option (Log × Nat) × FileStorage :=
  match (view fs).get? fs.pos with
  | none => (none, { fs with pos := 0 })
  | some line =>
    match decode line with
    | some l => (some (l, bsize line + 1), { fs with pos := fs.pos + 1 })
    | none => (none, { fs with pos := fs.pos + 1 })

/-- `FileStorage::write`: append the serialization plus a newline to the
file, and return `serialized.len()` — the byte size of the serialization
without the newline. -/
def write (fs : FileStorage) (value : Log) : FileStorage × Nat :=
  ({ fs with lines := fs.lines ++ [encode value] }, bsize (encode value))

/-- `FileStorage::override_storage`: create `path.kvsoverride`; re-open the
reader on the file currently at `path` (whose contents the reader keeps even
after that file is renamed to `path.kvsold` and finally deleted, since the
descriptor follows the file); rename `path` to `path.kvsold`; write every
record into the new file; rename it to `path`; delete the old file. -/
def override_storage (fs : FileStorage) (values : List Log) : FileStorage :=
  { lines := values.map encode, readerLines := some fs.lines, pos := 0 }

/-- Drive `decode` down a list of lines the way repeated `next` calls do:
collect decoded records with their read sizes, and report whether the scan
reached end of file (`true`) or stopped at an undecodable line (`false`). -/
def drainList : List (List Char) → List (Log × Nat) × Bool
  | [] => ([], true)
  | line :: rest =>
    match decode line with
    | some l =>
      let r := drainList rest
      ((l, bsize line + 1) :: r.1, r.2)
    | none => ([], false)

/-- Exhaust the iterator from the current position (the semantics of a
`for` loop over `by_ref()`, or of `.last()` on it): the yielded items, and
the storage as left behind — cursor rewound to 0 if end of file was
reached, or just past the offending line on a decode failure. -/
def drain (fs : FileStorage) : List (Log × Nat) × FileStorage :=
  let r := drainList ((view fs).drop fs.pos)
  (r.1, { fs with pos := if r.2 then 0 else fs.pos + r.1.length + 1 })

end FileStorage

/-- The compaction threshold constant from src/kv.rs (name kept verbatim). -/
def UNCOMPACTED_THREESHOLD : Nat := 1024 * 1024

/-- The key-value store facade (`KvStore` in src/kv.rs). -/
structure KvStore where
  storage : FileStorage
  cache : InMemoryMapCache
deriving DecidableEq, Repr

namespace KvStore

/-- `KvStore::cache_logs`: replay the storage iterator into the cache.  The
`Err` arm of the source loop is dead code: `next` never produces an error
item (decode failures become `None`), so the replay always succeeds. -/
def cache_logs (s : KvStore) : KvStore :=
  let r := s.storage.drain
  ⟨r.2, applyInserts s.cache r.1⟩

/-- `KvStore::new` on a file with the given contents: fresh reader at
position 0, empty cache, then `cache_logs`. -/
def openLines (lines : List (List Char)) : KvStore :=
  cache_logs ⟨⟨lines, none, 0⟩, InMemoryMapCache.new⟩

/-- `KvStore::_get_from_db`: run the iterator to exhaustion, keep the
records whose key matches, and take the last one. -/
def _get_from_db (s : KvStore) (key : String) :
    Option (Log × Nat) × KvStore :=
  let r := s.storage.drain
  ((r.1.filter (fun it => logKey it.1 = key)).getLast?,
    ⟨r.2, s.cache⟩)

/-- `KvStore::get`: serve from the cache when it has an entry; otherwise
fall back to scanning the log from the reader's current position, and cache
a found `Set`.  `none` models `Err("Key not found")`. -/
def get (s : KvStore) (key : String) : Option String × KvStore :=
  match lookupA s.cache.cache key with
  | some sl =>
    match sl.log with
    | .Set _ v => (some v, s)
    | .Remove _ => (none, s)
  | none =>
    let r := s._get_from_db key
    match r.1 with
    | some (log, size) =>
      match log with
      | .Set _ v => (some v, ⟨r.2.storage, r.2.cache.insert log size⟩)
      | .Remove _ => (none, r.2)
    | none => (none, r.2)

/-- `KvStore::compress_storage`: rewrite the log to the cache's records.
The cache itself — including `uncompacted` — is not touched. -/
def compress_storage (s : KvStore) : KvStore :=
  ⟨s.storage.override_storage s.cache.get_all, s.cache⟩

/-- `KvStore::set`: append the record, observe it in the cache, and compact
when the reclaimable-byte counter reaches the threshold. -/
def set (s : KvStore) (key value : String) : KvStore :=
  let log := Log.Set key value
  let w := s.storage.write log
  let c' := s.cache.insert log w.2
  let mid : KvStore := ⟨w.1, c'⟩
  if c'.uncompacted_space ≥ UNCOMPACTED_THREESHOLD then
    mid.compress_storage
  else mid

/-- `KvStore::remove`: a failed `get` aborts with `Key not found` (keeping
whatever the `get` did to the store); otherwise append a tombstone and
observe it.  No compaction check.  `none` models the error return. -/
def remove (s : KvStore) (key : String) : Option Unit × KvStore :=
  let r := s.get key
  match r.1 with
  | none => (none, r.2)
  | some _ =>
    let log := Log.Remove key
    let w := r.2.storage.write log
    (some (), ⟨w.1, r.2.cache.insert log w.2⟩)

end KvStore

/-- A filesystem mutation performed by `FileStorage::override_storage`
(read-only opens are omitted; they do not change the filesystem). -/
inductive FsEvent where
  | createFile (name : String)
  | appendLine (name : String) (line : List Char)
  | renameFile (src dst : String)
  | removeFile (name : String)
deriving DecidableEq, Repr

/-- Whether an event is a record append. -/
def isAppendEv : FsEvent → Bool
  | .appendLine _ _ => true
  | _ => false

/-- The sequence of filesystem mutations issued by
`FileStorage::override_storage` (src/storage.rs), in source order: create
`path.kvsoverride`; rename `path` to `path.kvsold`; append each record's
serialization to the new file; rename the new file to `path`; delete the
old file. -/
def overrideEvents (path : String) (values : List Log) : List FsEvent :=
  FsEvent.createFile (path ++ ".kvsoverride") ::
  FsEvent.renameFile path (path ++ ".kvsold") ::
  (values.map
      (fun l => FsEvent.appendLine (path ++ ".kvsoverride") (encode l)) ++
    [FsEvent.renameFile (path ++ ".kvsoverride") path,
     FsEvent.removeFile (path ++ ".kvsold")])

/-- A directory: file names mapped to contents (lists of record lines). -/
abbrev FileSys := List (String × List (List Char))

/-- Contents of a named file, if it exists. -/
def fsLookup : FileSys → String → Option (List (List Char))
  | [], _ => none
  | (n', c) :: rest, n => if n' = n then some c else fsLookup rest n

/-- Bind a name to contents, replacing any existing binding. -/
def fsSet (fsys : FileSys) (n : String) (c : List (List Char)) : FileSys :=
  (n, c) :: fsys.filter (fun p => p.1 ≠ n)

/-- Delete a file name. -/
def fsRemove (fsys : FileSys) (n : String) : FileSys :=
  fsys.filter (fun p => p.1 ≠ n)

/-- Effect of one filesystem event on a directory. -/
def applyEvent (fsys : FileSys) : FsEvent → FileSys
  | .createFile n => fsSet fsys n []
  | .appendLine n line => fsSet fsys n ((fsLookup fsys n).getD [] ++ [line])
  | .renameFile src dst =>
    match fsLookup fsys src with
    | some c => fsSet (fsRemove fsys src) dst c
    | none => fsys
  | .removeFile n => fsRemove fsys n

/-- Effect of a sequence of filesystem events. -/
def applyEvents (fsys : FileSys) (evs : List FsEvent) : FileSys :=
  evs.foldl applyEvent fsys

/-- `<FileStorage as Storage>::new` at the directory level
(src/storage.rs): open `db_name` for append if it exists; on `NotFound`
create it empty.  No other file in the directory is consulted: there is no
recovery step.  Returns the possibly extended directory and the storage. -/
def FileStorage.newFS (fsys : FileSys) (db_name : String) :
    FileSys × FileStorage :=
  match fsLookup fsys db_name with
  | some ls => (fsys, ⟨ls, none, 0⟩)
  | none => (fsSet fsys db_name [], ⟨[], none, 0⟩)

/-- `KvStore::new` at the directory level: open the storage, then replay
the log into a fresh cache. -/
def KvStore.newFS (fsys : FileSys) (db : String) : FileSys × KvStore :=
  let r := FileStorage.newFS fsys db
  (r.1, KvStore.cache_logs ⟨r.2, InMemoryMapCache.new⟩)

/-- The last record for a key in the decoded stream of a log file (the
stream stops at the first undecodable line, as the iterator does). -/
def lastRecFor (lines : List (List Char)) (k : String) :
    Option (Log × Nat) :=
  ((FileStorage.drainList lines).1.filter
      (fun it => logKey it.1 = k)).getLast?

/-- The live value of a key determined by the log alone: the last record
for the key, if that record is a `Set`. -/
def liveLast (lines : List (List Char)) (k : String) : Option Log :=
  match lastRecFor lines k with
  | some (Log.Set a b, _) => some (Log.Set a b)
  | _ => none

/-- A key is not live in a log when it was never set or its last record is
a tombstone. -/
def notLive (lines : List (List Char)) (k : String) : Prop :=
  liveLast lines k = none

/-- The cache a fresh open would rebuild from a log file. -/
def replayCache (lines : List (List Char)) : InMemoryMapCache :=
  applyInserts InMemoryMapCache.new (FileStorage.drainList lines).1

/-- Agreement of a replayed cache with an in-memory cache on records, with
every replayed size exceeding the in-memory size by exactly one byte (the
newline that `write`'s return value omits and `read_line` includes). -/
def recordRel (replayed inmem : InMemoryMapCache) : Prop :=
  (∀ k, (lookupA replayed.cache k).map (fun sl => sl.log)
      = (lookupA inmem.cache k).map (fun sl => sl.log)) ∧
  (∀ k sl sl', lookupA inmem.cache k = some sl →
      lookupA replayed.cache k = some sl' → sl'.size = sl.size + 1)

/-- A store whose reader sits at the start of the file it writes, whose log
is well formed, and whose cache agrees with the log: the state a clean open
establishes. -/
def SyncInv (s : KvStore) : Prop :=
  s.storage.readerLines = none ∧ s.storage.pos = 0 ∧
  (∀ line ∈ s.storage.lines, ∃ l, line = encode l) ∧
  (∀ k sl, lookupA s.cache.cache k = some sl →
      ∃ k0 v0, sl.log = Log.Set k0 v0) ∧
  (∀ k, (lookupA s.cache.cache k).map (fun sl => sl.log)
      = liveLast s.storage.lines k)

/-- Invariant maintained by every store operation from a fresh open: the
log decodes, cache keys are distinct, every cache entry is a `Set` stored
under its own key with its own write size, and a fresh replay of the log
agrees with the cache in the sense of `recordRel`. -/
def GoodState (s : KvStore) : Prop :=
  (∀ line ∈ s.storage.lines, ∃ l, line = encode l) ∧
  (s.cache.cache.map Prod.fst).Nodup ∧
  (∀ p ∈ s.cache.cache, logKey p.2.log = p.1 ∧ isSet p.2.log = true ∧
      p.2.size = bsize (encode p.2.log)) ∧
  recordRel (replayCache s.storage.lines) s.cache

/-- A store-level operation of the public API. -/
inductive Op where
  | set (k v : String)
  | del (k : String)
deriving DecidableEq, Repr

/-- Apply one public operation (a failed `remove` keeps the error branch's
state). -/
def runOp (s : KvStore) : Op → KvStore
  | .set k v => s.set k v
  | .del k => (s.remove k).2

/-- Run a sequence of public operations on a store opened on an empty
file. -/
def runOps (ops : List Op) : KvStore :=
  ops.foldl runOp (KvStore.openLines [])

/-- Claim C2's ordering property, as stated: every record append in an
event trace happens before the rename of `path` to the old-file name. -/
def appendsBeforeOldRename (evs : List FsEvent) (path : String) : Prop :=
  ∀ i j : Fin evs.length, isAppendEv (evs.get i) = true →
    evs.get j = FsEvent.renameFile path (path ++ ".kvsold") →
    (i : Nat) < (j : Nat)

/-- A line no record serializes to; deserialization fails on it. -/
def garbageLine : List Char := ['g', 'a', 'r', 'b', 'a', 'g', 'e']

/-- A store shaped like the state just after a threshold-crossing
compaction: one live entry, the log rewritten to that entry's record, the
reader still attached to the replaced file, and `uncompacted` sitting at
the threshold because `compress_storage` never resets it. -/
def postCompactionStore : KvStore :=
  ⟨⟨[encode (Log.Set "a" "b")], some [encode (Log.Set "a" "x")], 0⟩,
    ⟨[("a", ⟨Log.Set "a" "b", 17⟩)], 1048576⟩⟩

/-- A store whose reclaimable-byte counter has just reached the threshold,
as after a long run of overwrites, about to accept one more operation. -/
def thresholdStore : KvStore :=
  ⟨⟨[encode (Log.Set "x" "y")], none, 0⟩,
    ⟨[("x", ⟨Log.Set "x" "y", 17⟩)], 1048576⟩⟩

/-- A directory holding a one-record database file named `db`. -/
def dbDir : FileSys := [("db", [encode (Log.Set "a" "b")])]

/-- `dbDir` after a crash three steps into the compaction swap: the new
file holds the compacted log, `db` has been renamed to `db.kvsold`, and
nothing sits at `db` itself. -/
def crashedDir : FileSys :=
  applyEvents dbDir ((overrideEvents "db" [Log.Set "a" "b"]).take 3)

theorem stripPre_append (p r : List Char) : stripPre p (p ++ r) = some r := by
  induction p with
  | nil => rfl
  | cons c cs ih => simp [stripPre, ih]

theorem hexVal_hexDigit (m : Nat) (h : m < 16) : hexVal (hexDigit m) = some m := by
  interval_cases m <;> decide

theorem char_ofNat_toNat (c : Char) : Char.ofNat c.toNat = c := by
  exact Char.ofNat_toNat c

theorem parse_escape (s : List Char) (rest : List Char) :
    parseJsonString (escList s ++ '"' :: rest) = some (s, rest) := by
  induction s with
  | nil =>
    rw [escList, List.nil_append, parseJsonString.eq_def]
    simp
  | cons c cs ih =>
    by_cases h1 : c = '"'
    · subst h1
      have e : escList ('"' :: cs) ++ '"' :: rest =
          '\\' :: '"' :: (escList cs ++ '"' :: rest) := by
        simp [escList, escapeChar]
      rw [e, parseJsonString.eq_def]
      simp [ih]
    · by_cases h2 : c = '\\'
      · subst h2
        have e : escList ('\\' :: cs) ++ '"' :: rest =
            '\\' :: '\\' :: (escList cs ++ '"' :: rest) := by
          simp [escList, escapeChar]
        rw [e, parseJsonString.eq_def]
        simp [ih]
      · by_cases h3 : c = '\x08'
        · subst h3
          have e : escList ('\x08' :: cs) ++ '"' :: rest =
              '\\' :: 'b' :: (escList cs ++ '"' :: rest) := by
            simp [escList, escapeChar]
          rw [e, parseJsonString.eq_def]
          simp [ih]
        · by_cases h4 : c = '\t'
          · subst h4
            have e : escList ('\t' :: cs) ++ '"' :: rest =
                '\\' :: 't' :: (escList cs ++ '"' :: rest) := by
              simp [escList, escapeChar]
            rw [e, parseJsonString.eq_def]
            simp [ih]
          · by_cases h5 : c = '\n'
            · subst h5
              have e : escList ('\n' :: cs) ++ '"' :: rest =
                  '\\' :: 'n' :: (escList cs ++ '"' :: rest) := by
                simp [escList, escapeChar]
              rw [e, parseJsonString.eq_def]
              simp [ih]
            · by_cases h6 : c = '\x0c'
              · subst h6
                have e : escList ('\x0c' :: cs) ++ '"' :: rest =
                    '\\' :: 'f' :: (escList cs ++ '"' :: rest) := by
                  simp [escList, escapeChar]
                rw [e, parseJsonString.eq_def]
                simp [ih]
              · by_cases h7 : c = '\r'
                · subst h7
                  have e : escList ('\r' :: cs) ++ '"' :: rest =
                      '\\' :: 'r' :: (escList cs ++ '"' :: rest) := by
                    simp [escList, escapeChar]
                  rw [e, parseJsonString.eq_def]
                  simp [ih]
                · by_cases h8 : c.toNat < 32
                  · have e : escList (c :: cs) ++ '"' :: rest =
                        '\\' :: 'u' :: '0' :: '0' ::
                          hexDigit (c.toNat / 16) :: hexDigit (c.toNat % 16) ::
                          (escList cs ++ '"' :: rest) := by
                      simp [escList, escapeChar, h1, h2, h3, h4, h5, h6, h7, h8]
                    have hd1 : hexVal (hexDigit (c.toNat / 16)) =
                        some (c.toNat / 16) := hexVal_hexDigit _ (by omega)
                    have hd2 : hexVal (hexDigit (c.toNat % 16)) =
                        some (c.toNat % 16) := hexVal_hexDigit _ (by omega)
                    have h0 : hexVal '0' = some 0 := rfl
                    have harith : ((0 * 16 + 0) * 16 + c.toNat / 16) * 16 +
                        c.toNat % 16 = c.toNat := by omega
                    rw [e, parseJsonString.eq_def]
                    simp only [reduceIte, h0, hd1, hd2, harith]
                    rw [if_pos (by omega : c.toNat < 55296)]
                    simp [ih, char_ofNat_toNat]
                  · have e : escList (c :: cs) ++ '"' :: rest =
                        c :: (escList cs ++ '"' :: rest) := by
                      simp [escList, escapeChar, h1, h2, h3, h4, h5, h6, h7, h8]
                    rw [e, parseJsonString.eq_def]
                    simp [h1, h2, h8, ih]

theorem stripPre_setPre_remPre (x : List Char) :
    stripPre setPre (remPre ++ x) = none := by
  simp [setPre, remPre, stripPre]

theorem string_mk_data (s : String) : String.mk s.data = s := rfl

theorem decode_encode (l : Log) : decode (encode l) = some l := by
  cases l with
  | Set k v =>
    have e : encode (Log.Set k v) = setPre ++
        (escList k.data ++ '"' ::
          (',' :: '"' :: (escList v.data ++ '"' :: (']' :: [rbrace])))) := by
      simp [encode]
    rw [decode, e, stripPre_append]
    simp [parse_escape, stripPre, string_mk_data]
  | Remove k =>
    have e : encode (Log.Remove k) = remPre ++ (escList k.data ++ '"' :: [rbrace]) := by
      simp [encode]
    rw [decode, e, stripPre_setPre_remPre, stripPre_append]
    simp [parse_escape, stripPre, string_mk_data]

theorem newline_not_mem_escapeChar (c : Char) : '\n' ∉ escapeChar c := by
  have hx : ∀ m : Nat, m < 16 → hexDigit m ≠ '\n' := by
    intro m hm; interval_cases m <;> decide
  unfold escapeChar
  split
  · decide
  · split
    · decide
    · split
      · decide
      · split
        · decide
        · split
          · simp_all
          · split
            · decide
            · split
              · decide
              · split
                · intro hmem
                  simp only [List.mem_cons] at hmem
                  rcases hmem with h | h | h | h | h | h | h
                  · exact absurd h (by decide)
                  · exact absurd h (by decide)
                  · exact absurd h (by decide)
                  · exact absurd h (by decide)
                  · exact hx _ (by omega) h.symm
                  · exact hx _ (by omega) h.symm
                  · simp at h
                · rename_i h1 h2 h3 h4 h5 h6 h7 h8
                  intro hmem
                  simp only [List.mem_singleton] at hmem
                  exact h5 hmem.symm

theorem newline_not_mem_escList (s : List Char) : '\n' ∉ escList s := by
  induction s with
  | nil => simp [escList]
  | cons c cs ih =>
    rw [escList]
    intro h
    rcases List.mem_append.mp h with h | h
    · exact newline_not_mem_escapeChar c h
    · exact ih h

theorem newline_not_mem_encode (l : Log) : '\n' ∉ encode l := by
  have hk := newline_not_mem_escList
  cases l with
  | Set k v =>
    rw [encode]
    exact List.not_mem_append (List.not_mem_append (List.not_mem_append
      (List.not_mem_append (by decide) (hk _)) (by decide)) (hk _)) (by decide)
  | Remove k =>
    rw [encode]
    exact List.not_mem_append (List.not_mem_append (by decide) (hk _)) (by decide)

theorem bsize_append (a b : List Char) : bsize (a ++ b) = bsize a + bsize b := by
  simp [bsize]

theorem bsize_newline_snoc (a : List Char) : bsize (a ++ ['\n']) = bsize a + 1 := by
  rw [bsize_append]; rfl

theorem lookupA_eraseA_self (l : List (String × SizedLog)) (k : String) :
    lookupA (eraseA l k) k = none := by
  induction l with
  | nil => rfl
  | cons p rest ih =>
    by_cases h : p.1 = k
    · simpa [eraseA, h] using ih
    · simpa [eraseA, lookupA, h] using ih

theorem lookupA_cons (p : String × SizedLog) (rest : List (String × SizedLog))
    (k : String) :
    lookupA (p :: rest) k = if p.1 = k then some p.2 else lookupA rest k := by
  cases p; rfl

theorem eraseA_cons (p : String × SizedLog) (rest : List (String × SizedLog))
    (k : String) :
    eraseA (p :: rest) k =
      if p.1 = k then eraseA rest k else p :: eraseA rest k := by
  by_cases hp : p.1 = k <;> simp [eraseA, List.filter_cons, hp]

theorem lookupA_eraseA_ne (l : List (String × SizedLog)) (k k' : String)
    (h : k' ≠ k) : lookupA (eraseA l k) k' = lookupA l k' := by
  induction l with
  | nil => rfl
  | cons p rest ih =>
    rw [eraseA_cons, lookupA_cons]
    by_cases hp : p.1 = k
    · have hpk : ¬ p.1 = k' := by rw [hp]; exact fun e => h e.symm
      rw [if_pos hp, if_neg hpk]
      exact ih
    · rw [if_neg hp, lookupA_cons]
      by_cases hp' : p.1 = k'
      · rw [if_pos hp', if_pos hp']
      · rw [if_neg hp', if_neg hp']
        exact ih

theorem insert_lookup_set_self (c : InMemoryMapCache) (k v : String)
    (sz : Nat) :
    lookupA (c.insert (Log.Set k v) sz).cache k = some ⟨Log.Set k v, sz⟩ := by
  rw [InMemoryMapCache.insert]
  cases h : lookupA c.cache k <;> simp [lookupA]

theorem insert_lookup_rem_self (c : InMemoryMapCache) (k : String)
    (sz : Nat) : lookupA (c.insert (Log.Remove k) sz).cache k = none := by
  rw [InMemoryMapCache.insert]
  cases h : lookupA c.cache k with
  | none => simpa using h
  | some sl => simpa using lookupA_eraseA_self c.cache k

theorem insert_lookup_other (c : InMemoryMapCache) (log : Log) (sz : Nat)
    (k' : String) (h : k' ≠ logKey log) :
    lookupA (c.insert log sz).cache k' = lookupA c.cache k' := by
  cases log with
  | Set k v =>
    rw [InMemoryMapCache.insert]
    have hk : k' ≠ k := h
    have hk2 : ¬ (k = k') := fun e => hk e.symm
    cases hl : lookupA c.cache k <;>
      · simp only [lookupA_cons, if_neg hk2]
        exact lookupA_eraseA_ne c.cache k k' hk
  | Remove k =>
    rw [InMemoryMapCache.insert]
    have hk : k' ≠ k := h
    cases hl : lookupA c.cache k with
    | none => rfl
    | some sl => simpa using lookupA_eraseA_ne c.cache k k' hk

theorem nodup_keys_eraseA (l : List (String × SizedLog)) (k : String)
    (h : (l.map Prod.fst).Nodup) : ((eraseA l k).map Prod.fst).Nodup :=
  List.Nodup.sublist (List.Sublist.map Prod.fst (List.filter_sublist l)) h

theorem not_mem_keys_eraseA (l : List (String × SizedLog)) (k : String) :
    k ∉ (eraseA l k).map Prod.fst := by
  intro h
  obtain ⟨p, hp, he⟩ := List.mem_map.mp h
  have := List.of_mem_filter hp
  simp [he] at this

theorem nodup_keys_insert (c : InMemoryMapCache) (log : Log) (sz : Nat)
    (h : (c.cache.map Prod.fst).Nodup) :
    (((c.insert log sz).cache).map Prod.fst).Nodup := by
  cases log with
  | Set k v =>
    rw [InMemoryMapCache.insert]
    cases hl : lookupA c.cache k <;>
      · simp only [List.map_cons]
        exact List.Nodup.cons (not_mem_keys_eraseA c.cache k)
          (nodup_keys_eraseA c.cache k h)
  | Remove k =>
    rw [InMemoryMapCache.insert]
    cases hl : lookupA c.cache k with
    | none => exact h
    | some sl => exact nodup_keys_eraseA c.cache k h

theorem applyInserts_append_one (c : InMemoryMapCache)
    (xs : List (Log × Nat)) (x : Log × Nat) :
    applyInserts c (xs ++ [x]) = (applyInserts c xs).insert x.1 x.2 := by
  simp [applyInserts, List.foldl_append]

theorem replayLookup (items : List (Log × Nat)) (c : InMemoryMapCache)
    (k : String) :
    lookupA (applyInserts c items).cache k =
      match (items.filter (fun it => logKey it.1 = k)).getLast? with
      | some it => if isSet it.1 = true then some ⟨it.1, it.2⟩ else none
      | none => lookupA c.cache k := by
  induction items using List.reverseRecOn with
  | nil => rfl
  | append_singleton xs x ih =>
    obtain ⟨xl, xsz⟩ := x
    rw [applyInserts_append_one, List.filter_append]
    by_cases hm : logKey xl = k
    · have hf : List.filter (fun it => decide (logKey it.1 = k)) [(xl, xsz)] =
          [(xl, xsz)] := by simp [List.filter_cons, hm]
      rw [hf, List.getLast?_append_cons]
      cases xl with
      | Set a b =>
        have hk : a = k := hm
        subst hk
        simp [insert_lookup_set_self, isSet]
      | Remove a =>
        have hk : a = k := hm
        subst hk
        simp [insert_lookup_rem_self, isSet]
    · have hf : List.filter (fun it => decide (logKey it.1 = k)) [(xl, xsz)] =
          [] := by simp [List.filter_cons, hm]
      rw [hf, List.append_nil]
      rw [insert_lookup_other _ _ _ _ (fun e => hm e.symm)]
      exact ih

theorem drainList_append_clean (xs ys : List (List Char))
    (h : ∀ l ∈ xs, (decode l).isSome = true) :
    FileStorage.drainList (xs ++ ys) =
      ((FileStorage.drainList xs).1 ++ (FileStorage.drainList ys).1,
        (FileStorage.drainList ys).2) := by
  induction xs with
  | nil => simp [FileStorage.drainList]
  | cons line rest ih =>
    have hline := h line (List.mem_cons_self line rest)
    obtain ⟨l, hl⟩ := Option.isSome_iff_exists.mp hline
    have ihr := ih (fun x hx => h x (List.mem_cons_of_mem line hx))
    simp [FileStorage.drainList, hl, ihr]

theorem drainList_map_encode (logs : List Log) :
    FileStorage.drainList (logs.map encode) =
      (logs.map (fun l => (l, bsize (encode l) + 1)), true) := by
  induction logs with
  | nil => rfl
  | cons l rest ih => simp [FileStorage.drainList, decode_encode, ih]

theorem encoded_isSome (lines : List (List Char))
    (h : ∀ line ∈ lines, ∃ l, line = encode l) :
    ∀ line ∈ lines, (decode line).isSome = true := by
  intro line hm
  obtain ⟨l, hl⟩ := h line hm
  rw [hl, decode_encode]
  rfl

theorem drainList_clean_flag (lines : List (List Char))
    (h : ∀ line ∈ lines, (decode line).isSome = true) :
    (FileStorage.drainList lines).2 = true := by
  induction lines with
  | nil => rfl
  | cons line rest ih =>
    have hline := h line (List.mem_cons_self line rest)
    obtain ⟨l, hl⟩ := Option.isSome_iff_exists.mp hline
    have ihr := ih (fun x hx => h x (List.mem_cons_of_mem line hx))
    simp [FileStorage.drainList, hl, ihr]

theorem drain_lines (fs : FileStorage) :
    (fs.drain).2.lines = fs.lines := rfl

theorem drain_readerLines (fs : FileStorage) :
    (fs.drain).2.readerLines = fs.readerLines := rfl

theorem drain_clean (fs : FileStorage) (h1 : fs.readerLines = none)
    (h2 : fs.pos = 0)
    (h3 : ∀ line ∈ fs.lines, (decode line).isSome = true) :
    fs.drain = ((FileStorage.drainList fs.lines).1, fs) := by
  have hv : FileStorage.view fs = fs.lines := by
    rw [FileStorage.view, h1]; rfl
  have hflag := drainList_clean_flag fs.lines h3
  cases fs with
  | mk lines rl pos =>
    simp only at h1 h2
    subst h1; subst h2
    simp [FileStorage.drain, FileStorage.view, hflag]

theorem openLines_clean (lines : List (List Char))
    (h : ∀ line ∈ lines, ∃ l, line = encode l) :
    KvStore.openLines lines = ⟨⟨lines, none, 0⟩, replayCache lines⟩ := by
  rw [KvStore.openLines, KvStore.cache_logs]
  rw [drain_clean ⟨lines, none, 0⟩ rfl rfl (encoded_isSome lines h)]
  rfl

theorem replayCache_append_encode (lines : List (List Char))
    (h : ∀ line ∈ lines, ∃ l, line = encode l) (l : Log) :
    replayCache (lines ++ [encode l]) =
      (replayCache lines).insert l (bsize (encode l) + 1) := by
  rw [replayCache, replayCache,
    drainList_append_clean lines [encode l] (encoded_isSome lines h)]
  have he : FileStorage.drainList [encode l] =
      ([(l, bsize (encode l) + 1)], true) := by
    simpa using drainList_map_encode [l]
  rw [he]
  exact applyInserts_append_one _ _ _

theorem recordRel_insert (r c : InMemoryMapCache) (hrel : recordRel r c)
    (l : Log) (sz : Nat) :
    recordRel (r.insert l (sz + 1)) (c.insert l sz) := by
  obtain ⟨h1, h2⟩ := hrel
  constructor
  · intro k
    by_cases hk : k = logKey l
    · subst hk
      cases l with
      | Set a b => simp [insert_lookup_set_self, logKey]
      | Remove a => simp [insert_lookup_rem_self, logKey]
    · rw [insert_lookup_other _ _ _ _ hk, insert_lookup_other _ _ _ _ hk]
      exact h1 k
  · intro k sl sl' hc hr
    by_cases hk : k = logKey l
    · subst hk
      cases l with
      | Set a b =>
        simp only [logKey] at hc hr
        rw [insert_lookup_set_self] at hc hr
        cases hc; cases hr; rfl
      | Remove a =>
        simp only [logKey] at hr
        rw [insert_lookup_rem_self] at hr
        cases hr
    · rw [insert_lookup_other _ _ _ _ hk] at hc hr
      exact h2 k sl sl' hc hr

theorem mem_of_lookupA (l : List (String × SizedLog)) (k : String)
    (sl : SizedLog) (h : lookupA l k = some sl) : (k, sl) ∈ l := by
  induction l with
  | nil => cases h
  | cons p rest ih =>
    rw [lookupA_cons] at h
    by_cases hp : p.1 = k
    · rw [if_pos hp] at h
      injection h with h2
      subst h2
      subst hp
      simp
    · rw [if_neg hp] at h
      exact List.mem_cons_of_mem p (ih h)

theorem filter_get_all (ents : List (String × SizedLog)) (k : String)
    (hnd : (ents.map Prod.fst).Nodup)
    (hkeys : ∀ p ∈ ents, logKey p.2.log = p.1) :
    (ents.map (fun p => p.2.log)).filter (fun l => logKey l = k) =
      match lookupA ents k with
      | some sl => [sl.log]
      | none => [] := by
  induction ents with
  | nil => rfl
  | cons p rest ih =>
    have hp := hkeys p (List.mem_cons_self p rest)
    have hnd' := (List.nodup_cons.mp hnd).2
    have hnm := (List.nodup_cons.mp hnd).1
    have ihr := ih hnd' (fun q hq => hkeys q (List.mem_cons_of_mem p hq))
    rw [List.map_cons, List.filter_cons, lookupA_cons]
    by_cases he : p.1 = k
    · rw [if_pos he]
      have hcond : decide (logKey p.2.log = k) = true := by
        rw [hp, he]; exact decide_eq_true rfl
      rw [hcond]
      have hrest : (rest.map (fun p => p.2.log)).filter
          (fun l => logKey l = k) = [] := by
        apply List.filter_eq_nil_iff.mpr
        intro l hl
        obtain ⟨q, hq, hql⟩ := List.mem_map.mp hl
        have := hkeys q (List.mem_cons_of_mem p hq)
        rw [← hql, this]
        have : q.1 ≠ k := by
          rw [← he]
          intro e
          exact hnm (by simpa [e] using List.mem_map_of_mem Prod.fst hq)
        simpa using this
      simp [hrest]
    · rw [if_neg he]
      have hcond : ¬ (decide (logKey p.2.log = k) = true) := by
        rw [hp]; simpa using he
      rw [if_neg hcond]
      exact ihr

theorem replayCache_get_all (c : InMemoryMapCache)
    (hnd : (c.cache.map Prod.fst).Nodup)
    (hent : ∀ p ∈ c.cache, logKey p.2.log = p.1 ∧ isSet p.2.log = true ∧
      p.2.size = bsize (encode p.2.log)) :
    recordRel (replayCache (c.get_all.map encode)) c := by
  have hlook : ∀ k, lookupA (replayCache (c.get_all.map encode)).cache k =
      match lookupA c.cache k with
      | some sl => some ⟨sl.log, bsize (encode sl.log) + 1⟩
      | none => none := by
    intro k
    rw [replayCache, drainList_map_encode, replayLookup]
    have hfm : (c.get_all.map (fun l => (l, bsize (encode l) + 1))).filter
        (fun it => logKey it.1 = k) =
        ((c.get_all.filter (fun l => logKey l = k)).map
          (fun l => (l, bsize (encode l) + 1))) := by
      rw [List.filter_map]
      rfl
    rw [hfm]
    simp only [InMemoryMapCache.get_all]
    rw [filter_get_all c.cache k hnd (fun p hp => (hent p hp).1)]
    cases hl : lookupA c.cache k with
    | none => rfl
    | some sl =>
      have hmem := mem_of_lookupA c.cache k sl hl
      have hset := (hent (k, sl) hmem).2.1
      simp [hset]
  constructor
  · intro k
    rw [hlook k]
    cases hl : lookupA c.cache k <;> simp
  · intro k sl sl' hc hr
    rw [hlook k, hc] at hr
    have hsz := (hent (k, sl) (mem_of_lookupA c.cache k sl hc)).2.2
    cases hr
    simp [← hsz]

theorem mem_of_getLast?_eq (l : List α) (x : α) (h : l.getLast? = some x) :
    x ∈ l := by
  induction l with
  | nil => cases h
  | cons a rest ih =>
    cases rest with
    | nil =>
      simp only [List.getLast?_singleton, Option.some.injEq] at h
      simp [← h]
    | cons b rest2 =>
      rw [List.getLast?_cons_cons] at h
      exact List.mem_cons_of_mem a (ih h)

theorem get_from_db_key (s : KvStore) (key : String) (log : Log) (sz : Nat)
    (h : (s._get_from_db key).1 = some (log, sz)) : logKey log = key := by
  rw [KvStore._get_from_db] at h
  simp only at h
  have hmem := mem_of_getLast?_eq _ _ h
  have := List.of_mem_filter hmem
  simpa using this

theorem get_from_db_state (s : KvStore) (key : String) :
    (s._get_from_db key).2.cache = s.cache ∧
    (s._get_from_db key).2.storage.lines = s.storage.lines ∧
    (s._get_from_db key).2.storage.readerLines = s.storage.readerLines := by
  rw [KvStore._get_from_db]
  exact ⟨rfl, rfl, rfl⟩

theorem get_effects (s : KvStore) (key : String) :
    ((s.get key).2.storage.lines = s.storage.lines ∧
      (s.get key).2.storage.readerLines = s.storage.readerLines) ∧
    (((s.get key).1 = none ∧ (s.get key).2.cache = s.cache) ∨
      ((∃ u, (s.get key).1 = some u) ∧
        ((s.get key).2.cache = s.cache ∨
          ∃ u sz, (s.get key).2.cache = s.cache.insert (Log.Set key u) sz))) := by
  rw [KvStore.get]
  cases hl : lookupA s.cache.cache key with
  | some sl =>
    dsimp only
    cases hsl : sl.log with
    | Set a v => exact ⟨⟨rfl, rfl⟩, Or.inr ⟨⟨v, rfl⟩, Or.inl rfl⟩⟩
    | Remove a => exact ⟨⟨rfl, rfl⟩, Or.inl ⟨rfl, rfl⟩⟩
  | none =>
    dsimp only
    have hst := get_from_db_state s key
    cases hdb : (s._get_from_db key).1 with
    | some it =>
      obtain ⟨log, sz⟩ := it
      have hkey := get_from_db_key s key log sz hdb
      cases log with
      | Set a v =>
        have ha : a = key := hkey
        subst ha
        refine ⟨⟨hst.2.1, hst.2.2⟩, Or.inr ⟨⟨v, rfl⟩, Or.inr ⟨v, sz, ?_⟩⟩⟩
        rw [hst.1]
      | Remove a =>
        exact ⟨⟨hst.2.1, hst.2.2⟩, Or.inl ⟨rfl, hst.1⟩⟩
    | none => exact ⟨⟨hst.2.1, hst.2.2⟩, Or.inl ⟨rfl, hst.1⟩⟩

theorem set_eq (s : KvStore) (k v : String) :
    s.set k v =
      (if (s.cache.insert (Log.Set k v)
            (bsize (encode (Log.Set k v)))).uncompacted ≥
          UNCOMPACTED_THREESHOLD then
        KvStore.compress_storage
          ⟨⟨s.storage.lines ++ [encode (Log.Set k v)], s.storage.readerLines,
              s.storage.pos⟩,
            s.cache.insert (Log.Set k v) (bsize (encode (Log.Set k v)))⟩
      else
        ⟨⟨s.storage.lines ++ [encode (Log.Set k v)], s.storage.readerLines,
            s.storage.pos⟩,
          s.cache.insert (Log.Set k v) (bsize (encode (Log.Set k v)))⟩) :=
  rfl

theorem mem_insert_set (c : InMemoryMapCache) (k v : String) (sz : Nat) :
    ∀ p ∈ (c.insert (Log.Set k v) sz).cache,
      p = (k, ⟨Log.Set k v, sz⟩) ∨ p ∈ c.cache := by
  intro p hp
  rw [InMemoryMapCache.insert] at hp
  cases hl : lookupA c.cache k <;> rw [hl] at hp <;>
    · rcases List.mem_cons.mp hp with h | h
      · exact Or.inl h
      · exact Or.inr (List.mem_of_mem_filter h)

theorem lookupA_none_no_mem (l : List (String × SizedLog)) (k : String)
    (h : lookupA l k = none) : ∀ p ∈ l, p.1 ≠ k := by
  induction l with
  | nil => intro p hp; cases hp
  | cons q rest ih =>
    rw [lookupA_cons] at h
    by_cases hq : q.1 = k
    · rw [if_pos hq] at h; cases h
    · rw [if_neg hq] at h
      intro p hp
      rcases List.mem_cons.mp hp with he | hm
      · rw [he]; exact hq
      · exact ih h p hm

theorem mem_insert_rem (c : InMemoryMapCache) (k : String) (sz : Nat) :
    ∀ p ∈ (c.insert (Log.Remove k) sz).cache, p ∈ c.cache ∧ p.1 ≠ k := by
  intro p hp
  rw [InMemoryMapCache.insert] at hp
  cases hl : lookupA c.cache k <;> rw [hl] at hp
  · exact ⟨hp, lookupA_none_no_mem c.cache k hl p hp⟩
  · refine ⟨List.mem_of_mem_filter hp, ?_⟩
    have := List.of_mem_filter hp
    simpa using this

theorem recordRel_insert_rem (r c c2 : InMemoryMapCache) (key : String)
    (bs szT : Nat) (hrel : recordRel r c)
    (hc2 : c2 = c ∨ ∃ u sz, c2 = c.insert (Log.Set key u) sz) :
    recordRel (r.insert (Log.Remove key) bs)
      (c2.insert (Log.Remove key) szT) := by
  obtain ⟨h1, h2⟩ := hrel
  have hc2look : ∀ k0, k0 ≠ key →
      lookupA c2.cache k0 = lookupA c.cache k0 := by
    intro k0 hk0
    rcases hc2 with rfl | ⟨u, sz, rfl⟩
    · rfl
    · exact insert_lookup_other _ _ _ _ hk0
  constructor
  · intro k0
    by_cases hk0 : k0 = key
    · subst hk0
      rw [insert_lookup_rem_self, insert_lookup_rem_self]
    · rw [insert_lookup_other _ _ _ _ hk0, insert_lookup_other _ _ _ _ hk0,
        hc2look k0 hk0]
      exact h1 k0
  · intro k0 sl sl' hc hr
    by_cases hk0 : k0 = key
    · subst hk0
      rw [insert_lookup_rem_self] at hr
      cases hr
    · rw [insert_lookup_other _ _ _ _ hk0, hc2look k0 hk0] at hc
      rw [insert_lookup_other _ _ _ _ hk0] at hr
      exact h2 k0 sl sl' hc hr

theorem good_set_mid (s : KvStore) (k v : String)
    (rl : Option (List (List Char))) (pos : Nat) (h : GoodState s) :
    GoodState ⟨⟨s.storage.lines ++ [encode (Log.Set k v)], rl, pos⟩,
      s.cache.insert (Log.Set k v) (bsize (encode (Log.Set k v)))⟩ := by
  obtain ⟨h1, h2, h3, h4⟩ := h
  refine ⟨?_, ?_, ?_, ?_⟩
  · intro line hm
    rcases List.mem_append.mp hm with hm | hm
    · exact h1 line hm
    · exact ⟨Log.Set k v, by simpa using hm⟩
  · exact nodup_keys_insert s.cache _ _ h2
  · intro p hp
    rcases mem_insert_set s.cache k v _ p hp with he | hm
    · rw [he]
      exact ⟨rfl, rfl, rfl⟩
    · exact h3 p hm
  · rw [replayCache_append_encode s.storage.lines h1 (Log.Set k v)]
    exact recordRel_insert _ _ h4 _ _

theorem good_compress (s : KvStore) (h : GoodState s) :
    GoodState s.compress_storage := by
  obtain ⟨h1, h2, h3, h4⟩ := h
  refine ⟨?_, h2, h3, ?_⟩
  · intro line hm
    rw [KvStore.compress_storage, FileStorage.override_storage] at hm
    obtain ⟨l, _, hl⟩ := List.mem_map.mp hm
    exact ⟨l, hl.symm⟩
  · exact replayCache_get_all s.cache h2 h3

theorem good_set (s : KvStore) (k v : String) (h : GoodState s) :
    GoodState (s.set k v) := by
  rw [set_eq]
  split
  · exact good_compress _ (good_set_mid s k v _ _ h)
  · exact good_set_mid s k v _ _ h

theorem goodstate_of_same (s s' : KvStore) (h : GoodState s)
    (hl : s'.storage.lines = s.storage.lines) (hc : s'.cache = s.cache) :
    GoodState s' := by
  obtain ⟨h1, h2, h3, h4⟩ := h
  exact ⟨by rw [hl]; exact h1, by rw [hc]; exact h2,
    by rw [hc]; exact h3, by rw [hl, hc]; exact h4⟩

theorem good_remove (s : KvStore) (key : String) (h : GoodState s) :
    GoodState (s.remove key).2 := by
  have hge := get_effects s key
  rw [KvStore.remove]
  cases hr : (s.get key).1 with
  | none =>
    dsimp only
    rcases hge.2 with ⟨_, hc⟩ | ⟨⟨u, hu⟩, _⟩
    · exact goodstate_of_same s _ h hge.1.1 hc
    · rw [hr] at hu; cases hu
  | some u =>
    dsimp only
    rcases hge.2 with ⟨hn, _⟩ | ⟨_, hcache⟩
    · rw [hr] at hn; cases hn
    · obtain ⟨h1, h2, h3, h4⟩ := h
      have hlines : (s.get key).2.storage.lines = s.storage.lines := hge.1.1
      refine ⟨?_, ?_, ?_, ?_⟩
      · intro line hm
        simp only [FileStorage.write, hlines] at hm
        rcases List.mem_append.mp hm with hm | hm
        · exact h1 line hm
        · exact ⟨Log.Remove key, by simpa using hm⟩
      · apply nodup_keys_insert
        rcases hcache with he | ⟨u', sz, he⟩ <;> rw [he]
        · exact h2
        · exact nodup_keys_insert s.cache _ _ h2
      · intro p hp
        obtain ⟨hpm, hpk⟩ := mem_insert_rem _ key _ p hp
        have hpm2 : p ∈ s.cache.cache := by
          rcases hcache with he | ⟨u', sz, he⟩
          · rw [he] at hpm; exact hpm
          · rw [he] at hpm
            rcases mem_insert_set s.cache key u' sz p hpm with hph | hpo
            · exact absurd (by rw [hph]) hpk
            · exact hpo
        exact h3 p hpm2
      · simp only [FileStorage.write, hlines]
        rw [replayCache_append_encode s.storage.lines h1 (Log.Remove key)]
        exact recordRel_insert_rem _ _ _ key _ _ h4 hcache

theorem good_runOp (s : KvStore) (op : Op) (h : GoodState s) :
    GoodState (runOp s op) := by
  cases op with
  | set k v => exact good_set s k v h
  | del k => exact good_remove s k h

theorem good_openLines_nil : GoodState (KvStore.openLines []) := by
  refine ⟨?_, ?_, ?_, ?_, ?_⟩
  · intro line hm
    exact absurd hm (List.not_mem_nil line)
  · exact List.nodup_nil
  · intro p hp
    exact absurd hp (List.not_mem_nil p)
  · intro k0
    rfl
  · intro k0 sl sl' hc _
    exact Option.noConfusion hc

theorem good_runOps (ops : List Op) : GoodState (runOps ops) := by
  rw [runOps]
  have : ∀ s, GoodState s → GoodState (ops.foldl runOp s) := by
    induction ops with
    | nil => intro s hs; exact hs
    | cons op rest ih =>
      intro s hs
      exact ih (runOp s op) (good_runOp s op hs)
  exact this _ good_openLines_nil

theorem get_from_db_clean (s : KvStore) (key : String)
    (hrl : s.storage.readerLines = none) (hpos : s.storage.pos = 0)
    (henc : ∀ line ∈ s.storage.lines, ∃ l, line = encode l) :
    s._get_from_db key = (lastRecFor s.storage.lines key, s) := by
  rw [KvStore._get_from_db,
    drain_clean s.storage hrl hpos (encoded_isSome _ henc)]
  rfl

theorem get_sync (s : KvStore) (key : String) (h : SyncInv s) :
    ((s.get key).2 = s) ∧
    (∀ sl, lookupA s.cache.cache key = some sl →
      ∀ k0 v0, sl.log = Log.Set k0 v0 → (s.get key).1 = some v0) ∧
    (lookupA s.cache.cache key = none → (s.get key).1 = none) := by
  obtain ⟨hrl, hpos, henc, hset, hagree⟩ := h
  cases hl : lookupA s.cache.cache key with
  | some sl =>
    obtain ⟨k0, v0, hsl⟩ := hset key sl hl
    rw [KvStore.get, hl]
    dsimp only
    rw [hsl]
    refine ⟨rfl, ?_, ?_⟩
    · intro sl2 hl2 k1 v1 hsl2
      injection hl2 with hl2e
      subst hl2e
      rw [hsl] at hsl2
      injection hsl2 with e1 e2
      subst e2
      rfl
    · intro hn
      cases hn
  | none =>
    have hagk := hagree key
    rw [hl] at hagk
    have hlive : liveLast s.storage.lines key = none := hagk.symm
    rw [KvStore.get, hl]
    dsimp only
    rw [get_from_db_clean s key hrl hpos henc]
    cases hlast : lastRecFor s.storage.lines key with
    | some it =>
      obtain ⟨log, sz⟩ := it
      cases log with
      | Set a b =>
        rw [liveLast, hlast] at hlive
        cases hlive
      | Remove a =>
        refine ⟨rfl, ?_, ?_⟩
        · intro sl2 hl2
          cases hl2
        · intro _
          rfl
    | none =>
      refine ⟨rfl, ?_, ?_⟩
      · intro sl2 hl2
        cases hl2
      · intro _
        rfl

theorem sync_openLines (lines : List (List Char))
    (h : ∀ line ∈ lines, ∃ l, line = encode l) :
    SyncInv (KvStore.openLines lines) := by
  rw [openLines_clean lines h]
  refine ⟨rfl, rfl, h, ?_, ?_⟩
  · intro k sl hl
    rw [replayCache, replayLookup] at hl
    cases hlast : (((FileStorage.drainList lines).1).filter
        (fun it => logKey it.1 = k)).getLast? with
    | some it =>
      rw [hlast] at hl
      obtain ⟨log, sz⟩ := it
      cases log with
      | Set a b =>
        simp only [isSet, reduceIte] at hl
        injection hl with he
        subst he
        exact ⟨a, b, rfl⟩
      | Remove a =>
        simp [isSet] at hl
    | none =>
      rw [hlast] at hl
      exact Option.noConfusion hl
  · intro k
    rw [replayCache, replayLookup, liveLast, lastRecFor]
    cases hlast : (((FileStorage.drainList lines).1).filter
        (fun it => logKey it.1 = k)).getLast? with
    | some it =>
      obtain ⟨log, sz⟩ := it
      cases log with
      | Set a b => simp [isSet]
      | Remove a => simp [isSet]
    | none => rfl

theorem overrideEvents_length (p : String) (vs : List Log) :
    (overrideEvents p vs).length = vs.length + 4 := by
  simp [overrideEvents]

theorem overrideEvents_get_cases (p : String) (vs : List Log)
    (i : Fin (overrideEvents p vs).length) :
    ((i : Nat) = 0 ∧ (overrideEvents p vs).get i =
      FsEvent.createFile (p ++ ".kvsoverride")) ∨
    ((i : Nat) = 1 ∧ (overrideEvents p vs).get i =
      FsEvent.renameFile p (p ++ ".kvsold")) ∨
    (2 ≤ (i : Nat) ∧ (i : Nat) < 2 + vs.length ∧
      ∃ l, (overrideEvents p vs).get i =
        FsEvent.appendLine (p ++ ".kvsoverride") (encode l)) ∨
    ((i : Nat) = 2 + vs.length ∧ (overrideEvents p vs).get i =
      FsEvent.renameFile (p ++ ".kvsoverride") p) ∨
    ((i : Nat) = 3 + vs.length ∧ (overrideEvents p vs).get i =
      FsEvent.removeFile (p ++ ".kvsold")) := by
  obtain ⟨iv, hi⟩ := i
  have hlen := overrideEvents_length p vs
  rcases iv with _ | iv1
  · left
    exact ⟨rfl, rfl⟩
  rcases iv1 with _ | m
  · right; left
    exact ⟨rfl, rfl⟩
  have hm4 : m + 2 < vs.length + 4 := by rw [hlen] at hi; exact hi
  have hmm : m < ((vs.map (fun l =>
      FsEvent.appendLine (p ++ ".kvsoverride") (encode l))) ++
      [FsEvent.renameFile (p ++ ".kvsoverride") p,
       FsEvent.removeFile (p ++ ".kvsold")]).length := by
    simp only [List.length_append, List.length_map]
    simp
    omega
  have htail : (overrideEvents p vs).get ⟨m + 1 + 1, hi⟩ =
      ((vs.map (fun l =>
        FsEvent.appendLine (p ++ ".kvsoverride") (encode l))) ++
        [FsEvent.renameFile (p ++ ".kvsoverride") p,
         FsEvent.removeFile (p ++ ".kvsold")]).get ⟨m, hmm⟩ := rfl
  by_cases hml : m < vs.length
  · right; right; left
    refine ⟨show 2 ≤ m + 1 + 1 by omega, show m + 1 + 1 < 2 + vs.length by omega,
      vs.get ⟨m, hml⟩, ?_⟩
    rw [htail]
    simp only [List.get_eq_getElem]
    rw [List.getElem_append_left (by simpa using hml)]
    simp
  · have hge0 : vs.length ≤ m := Nat.le_of_not_lt hml
    have hge : (vs.map (fun l =>
        FsEvent.appendLine (p ++ ".kvsoverride") (encode l))).length ≤ m := by
      simpa using hge0
    have hsub : m = vs.length ∨ m = vs.length + 1 := by omega
    rcases hsub with hs | hs
    · right; right; right; left
      refine ⟨show m + 1 + 1 = 2 + vs.length by omega, ?_⟩
      rw [htail]
      simp only [List.get_eq_getElem]
      rw [List.getElem_append_right hge]
      simp [List.length_map, hs]
    · right; right; right; right
      refine ⟨show m + 1 + 1 = 3 + vs.length by omega, ?_⟩
      rw [htail]
      simp only [List.get_eq_getElem]
      rw [List.getElem_append_right hge]
      simp [List.length_map, hs]

theorem str_append_ne (p s : String) (h : s.data ≠ []) : p ++ s ≠ p := by
  intro he
  have hd : (p ++ s).data = p.data := congrArg String.data he
  rw [String.data_append] at hd
  have : p.data ++ s.data = p.data ++ [] := by simpa using hd
  exact h (List.append_cancel_left this)

theorem kvsoverride_ne (p : String) : p ++ ".kvsoverride" ≠ p :=
  str_append_ne p ".kvsoverride" (by decide)

theorem kvsold_ne (p : String) : p ++ ".kvsold" ≠ p :=
  str_append_ne p ".kvsold" (by decide)

theorem appendEv_idx (p : String) (vs : List Log)
    (i : Fin (overrideEvents p vs).length)
    (h : isAppendEv ((overrideEvents p vs).get i) = true) :
    2 ≤ (i : Nat) ∧ (i : Nat) < 2 + vs.length := by
  rcases overrideEvents_get_cases p vs i with
    ⟨_, he⟩ | ⟨_, he⟩ | ⟨h1, h2, l, he⟩ | ⟨_, he⟩ | ⟨_, he⟩ <;>
    rw [he] at h
  · simp [isAppendEv] at h
  · simp [isAppendEv] at h
  · exact ⟨h1, h2⟩
  · simp [isAppendEv] at h
  · simp [isAppendEv] at h

theorem renameOld_idx (p : String) (vs : List Log)
    (i : Fin (overrideEvents p vs).length)
    (h : (overrideEvents p vs).get i = FsEvent.renameFile p (p ++ ".kvsold")) :
    (i : Nat) = 1 := by
  rcases overrideEvents_get_cases p vs i with
    ⟨hv, he⟩ | ⟨hv, he⟩ | ⟨h1, h2, l, he⟩ | ⟨hv, he⟩ | ⟨hv, he⟩
  · exact FsEvent.noConfusion (he.symm.trans h)
  · exact hv
  · exact FsEvent.noConfusion (he.symm.trans h)
  · have hinj := he.symm.trans h
    injection hinj with e1 e2
    exact absurd e1 (kvsoverride_ne p)
  · exact FsEvent.noConfusion (he.symm.trans h)

theorem finish_idx (p : String) (vs : List Log)
    (j : Fin (overrideEvents p vs).length)
    (h : (overrideEvents p vs).get j =
        FsEvent.renameFile (p ++ ".kvsoverride") p ∨
      (overrideEvents p vs).get j = FsEvent.removeFile (p ++ ".kvsold")) :
    2 + vs.length ≤ (j : Nat) := by
  rcases overrideEvents_get_cases p vs j with
    ⟨hv, he⟩ | ⟨hv, he⟩ | ⟨h1, h2, l, he⟩ | ⟨hv, he⟩ | ⟨hv, he⟩
  · rcases h with h | h <;> exact FsEvent.noConfusion (he.symm.trans h)
  · rcases h with h | h
    · have hinj := he.symm.trans h
      injection hinj with e1 e2
      exact absurd e1.symm (kvsoverride_ne p)
    · exact FsEvent.noConfusion (he.symm.trans h)
  · rcases h with h | h <;> exact FsEvent.noConfusion (he.symm.trans h)
  · omega
  · omega

/-- Claim C1: after a compaction triggered by `set` at the threshold, the
log file does contain exactly one record per live index entry (that half of
the claim holds), but `uncompacted_bytes` is not reset: `compress_storage`
leaves the cache — counter included — untouched, so at the concrete
triggering store the counter is still 1048576 after compaction, not 0. -/
theorem claimC1_compaction_keeps_uncompacted :
    (∀ s : KvStore, s.compress_storage.cache = s.cache ∧
      s.compress_storage.storage.lines = s.cache.get_all.map encode) ∧
    ((thresholdStore.set "a" "b").storage.lines =
      ((thresholdStore.cache.insert (Log.Set "a" "b")
        (bsize (encode (Log.Set "a" "b")))).get_all).map encode ∧
     (thresholdStore.set "a" "b").cache.uncompacted = 1048576 ∧
     (thresholdStore.set "a" "b").cache.uncompacted ≠ 0) :=
  ⟨fun _ => ⟨rfl, rfl⟩, by decide⟩

/-- Claim C2 counterexample: in the trace of `override_storage` for one
live record, the rename of `db` to `db.kvsold` sits at index 1 and the
record append at index 2, so it is false that every append precedes that
rename. -/
theorem claimC2_counterexample :
    ¬ appendsBeforeOldRename (overrideEvents "db" [Log.Set "a" "b"]) "db" := by
  intro hP
  have h := hP ⟨2, by decide⟩ ⟨1, by decide⟩ (by decide) (by decide)
  simp at h

/-- Claim C2 (amended): in `override_storage` the rename of `path` to the
old-file name precedes every record append, and every record append
precedes both the rename of the new file onto `path` and the deletion of
the old file. -/
theorem claimC2_swap_order (p : String) (vs : List Log)
    (i j : Fin (overrideEvents p vs).length) :
    ((overrideEvents p vs).get i = FsEvent.renameFile p (p ++ ".kvsold") →
      isAppendEv ((overrideEvents p vs).get j) = true →
      (i : Nat) < (j : Nat)) ∧
    (isAppendEv ((overrideEvents p vs).get i) = true →
      ((overrideEvents p vs).get j =
          FsEvent.renameFile (p ++ ".kvsoverride") p ∨
        (overrideEvents p vs).get j = FsEvent.removeFile (p ++ ".kvsold")) →
      (i : Nat) < (j : Nat)) := by
  constructor
  · intro hi hj
    have h1 := renameOld_idx p vs i hi
    have h2 := appendEv_idx p vs j hj
    omega
  · intro hi hj
    have h1 := appendEv_idx p vs i hi
    have h2 := finish_idx p vs j hj
    omega

/-- Witness for the amended claim C2 at a concrete trace. -/
theorem claimC2_swap_order_witness :
    ((overrideEvents "db" [Log.Set "a" "b"]).get ⟨1, by decide⟩ =
        FsEvent.renameFile "db" ("db" ++ ".kvsold") ∧
      isAppendEv ((overrideEvents "db" [Log.Set "a" "b"]).get
        ⟨2, by decide⟩) = true ∧
      (1 : Nat) < 2) ∧
    (isAppendEv ((overrideEvents "db" [Log.Set "a" "b"]).get
        ⟨2, by decide⟩) = true ∧
      (overrideEvents "db" [Log.Set "a" "b"]).get ⟨3, by decide⟩ =
        FsEvent.renameFile ("db" ++ ".kvsoverride") "db" ∧
      (2 : Nat) < 3) := by
  refine ⟨⟨by decide, by decide, ?_⟩, ⟨by decide, by decide, ?_⟩⟩
  · exact (claimC2_swap_order "db" [Log.Set "a" "b"] ⟨1, by decide⟩
      ⟨2, by decide⟩).1 (by decide) (by decide)
  · exact (claimC2_swap_order "db" [Log.Set "a" "b"] ⟨2, by decide⟩
      ⟨3, by decide⟩).2 (by decide) (Or.inl (by decide))

/-- Claim C3: open is claimed to run a recovery policy.  The code's open
does none: with the crash state (main file renamed away, compacted data in
`db.kvsoverride`), open creates a fresh empty `db`, leaves both auxiliary
files in place, and yields an empty store even though data existed. -/
theorem claimC3_no_recovery :
    fsLookup crashedDir "db" = none ∧
    fsLookup crashedDir "db.kvsoverride" = some [encode (Log.Set "a" "b")] ∧
    fsLookup crashedDir "db.kvsold" = some [encode (Log.Set "a" "b")] ∧
    (KvStore.newFS crashedDir "db").2.cache = InMemoryMapCache.new ∧
    (KvStore.newFS crashedDir "db").2.storage.lines = [] ∧
    fsLookup (KvStore.newFS crashedDir "db").1 "db.kvsoverride" =
      some [encode (Log.Set "a" "b")] := by decide

/-- Claim C4 counterexample: after `set a b; set a c` from a fresh store,
replay rebuilds the entry for `a` with size 18 while the in-memory entry
has size 17, and the uncompacted counters differ likewise, so the rebuilt
index does not equal the in-memory one. -/
theorem claimC4_counterexample :
    lookupA (KvStore.openLines
        (runOps [Op.set "a" "b", Op.set "a" "c"]).storage.lines).cache.cache
        "a" ≠
      lookupA (runOps [Op.set "a" "b", Op.set "a" "c"]).cache.cache "a" ∧
    (KvStore.openLines
        (runOps [Op.set "a" "b", Op.set "a" "c"]).storage.lines).cache.uncompacted ≠
      (runOps [Op.set "a" "b", Op.set "a" "c"]).cache.uncompacted := by
  decide

/-- Claim C4 (amended): for every operation sequence from a fresh store,
replay rebuilds the same key-to-record map, but each rebuilt size is
exactly one byte larger than the in-memory one — `write` reports the
serialization length without the newline while replay's `read_line` count
includes it — so the (record, size) maps and `uncompacted_bytes` differ. -/
theorem claimC4_replay_records (ops : List Op) :
    recordRel (KvStore.openLines (runOps ops).storage.lines).cache
      (runOps ops).cache := by
  obtain ⟨h1, _, _, h4⟩ := good_runOps ops
  rw [openLines_clean _ h1]
  exact h4

/-- Claim C5: the size reported by `write` is claimed to include the
terminating newline and to match replay's size.  At `Set("a","b")` the
write reports 17, the bytes written to disk are 18 (newline included), and
replay reports 18: the reported size matches neither. -/
theorem claimC5_write_size_mismatch :
    (FileStorage.write ⟨[], none, 0⟩ (Log.Set "a" "b")).2 = 17 ∧
    (FileStorage.write ⟨[], none, 0⟩ (Log.Set "a" "b")).1.lines =
      [encode (Log.Set "a" "b")] ∧
    bsize (encode (Log.Set "a" "b") ++ ['\n']) = 18 ∧
    (FileStorage.next ⟨[encode (Log.Set "a" "b")], none, 0⟩).1 =
      some (Log.Set "a" "b", 18) ∧
    (17 : Nat) ≠ 18 := by decide

/-- Claim C6: a malformed line is claimed to make open fail.  Instead the
iterator maps the decode error to `None`: opening a file whose first line
is garbage followed by a valid record succeeds, silently drops both
records, and leaves a usable store with an empty index (the reader parked
just past the bad line). -/
theorem claimC6_silent_decode_stop :
    decode garbageLine = none ∧
    KvStore.openLines [garbageLine, encode (Log.Set "a" "b")] =
      ⟨⟨[garbageLine, encode (Log.Set "a" "b")], none, 1⟩,
        InMemoryMapCache.new⟩ := by decide

/-- Claim C7 counterexample: at a store sitting at the threshold, a
successful `remove` leaves `uncompacted` at or above the threshold and
merely appends the tombstone — the log is not rewritten to the live
records, so no compaction ran after `remove`. -/
theorem claimC7_counterexample :
    (postCompactionStore.remove "a").1 = some () ∧
    (postCompactionStore.remove "a").2.cache.uncompacted ≥
      UNCOMPACTED_THREESHOLD ∧
    (postCompactionStore.remove "a").2.storage.lines =
      postCompactionStore.storage.lines ++ [encode (Log.Remove "a")] ∧
    (postCompactionStore.remove "a").2.storage.lines ≠
      ((postCompactionStore.remove "a").2.cache.get_all).map encode := by
  decide

/-- Claim C7 (amended): the threshold check runs only in `set`: after `set`
the log is rewritten to the live records exactly when the updated cache's
reclaimable space reaches the threshold, and is merely appended to
otherwise; `remove` never rewrites the log (it appends at most a
tombstone), and `get` never changes the log. -/
theorem claimC7_trigger (s : KvStore) (k v : String) :
    ((s.cache.insert (Log.Set k v)
        (bsize (encode (Log.Set k v)))).uncompacted_space ≥
        UNCOMPACTED_THREESHOLD →
      (s.set k v).storage.lines =
        ((s.cache.insert (Log.Set k v)
          (bsize (encode (Log.Set k v)))).get_all).map encode) ∧
    (¬ ((s.cache.insert (Log.Set k v)
        (bsize (encode (Log.Set k v)))).uncompacted_space ≥
        UNCOMPACTED_THREESHOLD) →
      (s.set k v).storage.lines =
        s.storage.lines ++ [encode (Log.Set k v)]) ∧
    ((s.remove k).2.storage.lines = s.storage.lines ∨
      (s.remove k).2.storage.lines =
        s.storage.lines ++ [encode (Log.Remove k)]) ∧
    ((s.get k).2.storage.lines = s.storage.lines) := by
  refine ⟨?_, ?_, ?_, (get_effects s k).1.1⟩
  · intro h
    have h2 : (s.cache.insert (Log.Set k v)
        (bsize (encode (Log.Set k v)))).uncompacted ≥
        UNCOMPACTED_THREESHOLD := h
    rw [set_eq, if_pos h2]
    rfl
  · intro h
    have h2 : ¬ ((s.cache.insert (Log.Set k v)
        (bsize (encode (Log.Set k v)))).uncompacted ≥
        UNCOMPACTED_THREESHOLD) := h
    rw [set_eq, if_neg h2]
  · have hge := (get_effects s k).1.1
    rw [KvStore.remove]
    cases hr : (s.get k).1 with
    | none =>
      left
      exact hge
    | some u =>
      right
      simp only [FileStorage.write, hge]

/-- Witness for the amended claim C7 at concrete stores on both sides of
the threshold. -/
theorem claimC7_trigger_witness :
    ((thresholdStore.cache.insert (Log.Set "a" "b")
        (bsize (encode (Log.Set "a" "b")))).uncompacted_space ≥
        UNCOMPACTED_THREESHOLD ∧
      (thresholdStore.set "a" "b").storage.lines =
        ((thresholdStore.cache.insert (Log.Set "a" "b")
          (bsize (encode (Log.Set "a" "b")))).get_all).map encode) ∧
    (¬ (((KvStore.openLines []).cache.insert (Log.Set "a" "b")
        (bsize (encode (Log.Set "a" "b")))).uncompacted_space ≥
        UNCOMPACTED_THREESHOLD) ∧
      ((KvStore.openLines []).set "a" "b").storage.lines =
        (KvStore.openLines []).storage.lines ++
          [encode (Log.Set "a" "b")]) := by
  refine ⟨⟨by decide, ?_⟩, ⟨by decide, ?_⟩⟩
  · exact (claimC7_trigger thresholdStore "a" "b").1 (by decide)
  · exact (claimC7_trigger (KvStore.openLines []) "a" "b").2.1 (by decide)

/-- Claim C8 counterexample: open a log whose first line is garbage — the
replay stops silently, leaving the index empty but the reader parked past
the bad line.  `get "a"` then finds no index entry, yet instead of
returning KeyNotFound without touching the disk it scans the log from the
reader position, returns the value `"b"` found there, and inserts it into
the index. -/
theorem claimC8_counterexample :
    lookupA (KvStore.openLines
        [garbageLine, encode (Log.Set "a" "b")]).cache.cache "a" = none ∧
    ((KvStore.openLines [garbageLine, encode (Log.Set "a" "b")]).get
        "a").1 = some "b" ∧
    ((KvStore.openLines [garbageLine, encode (Log.Set "a" "b")]).get
        "a").2.cache ≠
      (KvStore.openLines [garbageLine, encode (Log.Set "a" "b")]).cache := by
  decide

/-- Claim C8 (amended): `get` serves an index entry `Set(_, v)` as `v` and
answers KeyNotFound for an unmapped key, without modifying the store — but
only on a synchronized store (reader at the start of a fully decodable log
whose replay agrees with the index, as a clean open produces): on a miss
the code always falls back to scanning the log from the reader position
and may answer from disk and cache the result. -/
theorem claimC8_get_from_index (s : KvStore) (key : String) (h : SyncInv s) :
    ((s.get key).2 = s) ∧
    (∀ sl, lookupA s.cache.cache key = some sl →
      ∀ k0 v0, sl.log = Log.Set k0 v0 → (s.get key).1 = some v0) ∧
    (lookupA s.cache.cache key = none → (s.get key).1 = none) :=
  get_sync s key h

/-- Witness for the amended claim C8 at a clean one-record store. -/
theorem claimC8_get_from_index_witness :
    SyncInv (KvStore.openLines [encode (Log.Set "a" "b")]) ∧
    ((KvStore.openLines [encode (Log.Set "a" "b")]).get "a").1 = some "b" ∧
    ((KvStore.openLines [encode (Log.Set "a" "b")]).get "z").1 = none ∧
    ((KvStore.openLines [encode (Log.Set "a" "b")]).get "a").2 =
      KvStore.openLines [encode (Log.Set "a" "b")] := by
  have hsync : SyncInv (KvStore.openLines [encode (Log.Set "a" "b")]) :=
    sync_openLines _ (by
      intro line hm
      simp only [List.mem_singleton] at hm
      exact ⟨Log.Set "a" "b", hm⟩)
  refine ⟨hsync, ?_, ?_, ?_⟩
  · exact (claimC8_get_from_index _ "a" hsync).2.1 ⟨Log.Set "a" "b", 18⟩
      (by decide) "a" "b" rfl
  · exact (claimC8_get_from_index _ "z" hsync).2.2 (by decide)
  · exact (claimC8_get_from_index _ "a" hsync).1

/-- Claim C9: on a synchronized store, `remove` of a key that is not live
in the log — never set, or last record a tombstone — returns KeyNotFound,
appends no record, and leaves the whole store (index, counter, and log)
unchanged. -/
theorem claimC9_remove_absent (s : KvStore) (key : String) (h : SyncInv s)
    (hnl : notLive s.storage.lines key) :
    s.remove key = (none, s) := by
  obtain ⟨hget2, _, hget3⟩ := get_sync s key h
  have hl : lookupA s.cache.cache key = none := by
    have hag := h.2.2.2.2 key
    rw [notLive] at hnl
    rw [hnl] at hag
    cases hlk : lookupA s.cache.cache key with
    | none => rfl
    | some sl =>
      rw [hlk] at hag
      cases hag
  have h1 : (s.get key).1 = none := hget3 hl
  rw [KvStore.remove]
  simp only [h1, hget2]

/-- Witness for claim C9 at a clean one-record store and an absent key. -/
theorem claimC9_remove_absent_witness :
    SyncInv (KvStore.openLines [encode (Log.Set "a" "b")]) ∧
    notLive (KvStore.openLines [encode (Log.Set "a" "b")]).storage.lines
      "z" ∧
    (KvStore.openLines [encode (Log.Set "a" "b")]).remove "z" =
      (none, KvStore.openLines [encode (Log.Set "a" "b")]) := by
  have hsync : SyncInv (KvStore.openLines [encode (Log.Set "a" "b")]) :=
    sync_openLines _ (by
      intro line hm
      simp only [List.mem_singleton] at hm
      exact ⟨Log.Set "a" "b", hm⟩)
  have hnl : notLive (KvStore.openLines
      [encode (Log.Set "a" "b")]).storage.lines "z" := by
    rw [notLive]
    decide
  exact ⟨hsync, hnl, claimC9_remove_absent _ "z" hsync hnl⟩

/-- Claim C10: replaying any sequence of observed records into the empty
index leaves only `Set` records in the map — a `Remove` is never stored
under any key, so a lookup that finds an entry always finds a `Set` and
the `Remove` arm of `get` cannot fire on it. -/
theorem claimC10_no_remove_stored (items : List (Log × Nat)) (k : String)
    (sl : SizedLog)
    (h : lookupA (applyInserts InMemoryMapCache.new items).cache k =
      some sl) :
    ∃ k0 v0, sl.log = Log.Set k0 v0 := by
  rw [replayLookup] at h
  cases hlast : ((items.filter (fun it => logKey it.1 = k)).getLast?) with
  | some it =>
    rw [hlast] at h
    obtain ⟨log, sz⟩ := it
    cases log with
    | Set a b =>
      simp only [isSet, reduceIte] at h
      injection h with he
      subst he
      exact ⟨a, b, rfl⟩
    | Remove a =>
      simp [isSet] at h
  | none =>
    rw [hlast] at h
    exact Option.noConfusion h

/-- Witness for claim C10 on a two-insert replay. -/
theorem claimC10_no_remove_stored_witness :
    lookupA (applyInserts InMemoryMapCache.new
        [(Log.Set "a" "b", 5), (Log.Remove "c", 3)]).cache "a" =
      some ⟨Log.Set "a" "b", 5⟩ ∧
    ∃ k0 v0, (⟨Log.Set "a" "b", 5⟩ : SizedLog).log = Log.Set k0 v0 :=
  ⟨by decide, claimC10_no_remove_stored
    [(Log.Set "a" "b", 5), (Log.Remove "c", 3)] "a" _ (by decide)⟩
